import Mathlib

/-!
Verification of the simulated-observation generator and catalog interface of
`beast/observationmodel/observations.py`.

The development shallowly embeds the module in Lean:

* physical fluxes, weights, biases, uncertainties and completenesses are
  rational numbers (`ℚ`), so normalization and arithmetic facts are exact;
* the process-wide numpy random generator is modelled by an explicit state
  (`RngState`): `np.random.seed` resets it, and every deviate consumed
  advances a counter; the actual deviate values are supplied by an abstract
  environment (`Externals`), so a drawn value is a deterministic function of
  (seed, position);
* the astropy `Table` is an ordered association list of named columns
  (`ot[name] = col` replaces an existing column or appends a fresh one);
* Python exceptions are `Except String`;
* the IEEE-754 behaviour of the weight-normalization line (division by a zero
  or non-finite sum) is modelled separately on a value type `RVal` with
  signed infinities and NaN, together with the input validation performed by
  `np.random.choice` before any index is drawn.
-/

deriving instance DecidableEq for Except

/-- Split a character list on a separator character; mirrors the group
structure of Python `str.split(sep)` (always at least one group). -/
def splitOnChar (sep : Char) : List Char → List (List Char)
  | [] => [[]]
  | c :: cs =>
    match splitOnChar sep cs with
    | [] => [[]]
    | g :: gs => if c = sep then [] :: g :: gs else (c :: g) :: gs

/-- Python `s.upper()` (ASCII). -/
def strUpper (s : String) : String := ⟨s.data.map Char.toUpper⟩

/-- Python `s.lower()` (ASCII). -/
def strLower (s : String) : String := ⟨s.data.map Char.toLower⟩

/-- Python `filter.split(sep="_")[-1].upper()`: the token after the final
underscore, upper-cased (source line 272 and line 320). -/
def shortName (s : String) : String :=
  ⟨((splitOnChar '_' s.data).getLastD []).map Char.toUpper⟩

/-- Python `"\n".join(l)`. -/
def joinNewline : List String → String
  | [] => ""
  | [s] => s
  | s :: ss => s ++ "\n" ++ joinNewline ss

/-- The model grid (`sedgrid`): `n` models, `f` filters.  `seds` is the flux
array, `filters` the filter identifiers, `cols` the named columns
(weights and physical parameters, accessed as `sedgrid[name]`), and
`qnames` the declared parameter-column order (`sedgrid.keys()`). -/
structure SEDGrid (n f : Nat) where
  seds : Fin n → Fin f → ℚ
  filters : Fin f → String
  cols : String → Fin n → ℚ
  qnames : List String

/-- The toothpick noise model (`sedgrid_noisemodel`): per (model, filter)
bias, signed uncertainty (`error`) and completeness. -/
structure NoiseModel (n f : Nat) where
  bias : Fin n → Fin f → ℚ
  error : Fin n → Fin f → ℚ
  completeness : Fin n → Fin f → ℚ

/-- Abstract deterministic sources backing the numpy global generator and
`np.log10`: `uniform s c` (resp. `gauss s c`) is the uniform (resp. standard
normal) deviate the generator seeded with `s` produces at position `c`. -/
structure Externals where
  uniform : Nat → Nat → ℚ
  gauss : Nat → Nat → ℚ
  log10 : ℚ → ℚ

/-- State of the process-wide numpy random generator: the seed it was last
seeded with and how many deviates have been consumed since. -/
structure RngState where
  seed : Nat
  counter : Nat
deriving DecidableEq, Repr

/-- `np.random.seed(s)` (source line 297): resets the global generator,
discarding its previous state. -/
def npSeed (s : Nat) (_σ : RngState) : RngState := ⟨s, 0⟩

/-- An astropy `Table`: ordered list of named columns. -/
abbrev SimTable := List (String × List ℚ)

/-- `ot[name] = col` on an astropy table: replace the column if the name is
present, otherwise append it. -/
def tableSet (t : SimTable) (name : String) (col : List ℚ) : SimTable :=
  if t.any (fun e => e.1 = name) then
    t.map (fun e => if e.1 = name then (name, col) else e)
  else
    t ++ [(name, col)]

/-- `ot[name]` lookup on an astropy table. -/
def tableGet (t : SimTable) (name : String) : Option (List ℚ) :=
  (t.find? (fun e => e.1 = name)).map (fun e => e.2)

/-- Names of the columns of a table, in order. -/
def tableNames (t : SimTable) : List String := t.map (fun e => e.1)

/-- The magnitude of one rate value (source lines 326-330 and 341-345): the
magnitude column starts as a copy of the rate column, entries with positive
rate are overwritten with `-2.5*log10(rate)`, and entries with non-positive
rate are overwritten with the sentinel `-99.999`. -/
def magOfRate (lg : ℚ → ℚ) (r : ℚ) : ℚ :=
  let m := r
  let m := if 0 < r then -(5/2) * lg r else m
  let m := if r ≤ 0 then -(99999/1000) else m
  m

/-- One draw of `np.random.normal(loc, scale)` whose standard-normal deviate
is `z`; numpy rejects `scale < 0` and the callers below always pass the
sign-corrected `scale = |error| ≥ 0`. -/
def npNormal (loc scale z : ℚ) : ℚ := loc + scale * z

/-- `model_unc = np.fabs(sedgrid_noisemodel["error"])` (source line 264). -/
def model_unc {n f : Nat} (nm : NoiseModel n f) : Fin n → Fin f → ℚ :=
  fun i k => |nm.error i k|

/-- `np.sum` of a vector indexed by `Fin n`. -/
def sumFin {n : Nat} (v : Fin n → ℚ) : ℚ := ((List.finRange n).map v).sum

/-- `np.max(row)` over the filter axis (source line 270); numpy rejects an
empty axis, the `0` default is never reached when `0 < f`. -/
def npRowMax {f : Nat} (row : Fin f → ℚ) : ℚ :=
  match List.finRange f with
  | [] => 0
  | k :: ks => ks.foldl (fun m j => max m (row j)) (row k)

/-- The normalized selection distribution (source lines 291-293):
`gridweights = sedgrid[weight_to_use] * model_compl` followed by
`gridweights = gridweights / np.sum(gridweights)`. -/
def gridweightsOf {n : Nat} (w mc : Fin n → ℚ) : Fin n → ℚ :=
  fun i => (w i * mc i) / sumFin (fun j => w j * mc j)

/-- Running cumulative sums of a list (numpy `cumsum`). -/
def cumsumFrom (acc : ℚ) : List ℚ → List ℚ
  | [] => []
  | x :: xs => (acc + x) :: cumsumFrom (acc + x) xs

/-- One index produced by `np.random.choice(range(n), p=...)` from the
uniform deviate `u`: invert the normalized cumulative distribution by a
right-sided search. -/
def npChoiceIndex {n : Nat} (hn : 0 < n) (p : Fin n → ℚ) (u : ℚ) : Fin n :=
  let cdf := cumsumFrom 0 ((List.finRange n).map p)
  let cdfn := cdf.map (fun x => x / cdf.getLastD 1)
  match (List.finRange n).find? (fun i => u < cdfn.getD i.val 0) with
  | some i => i
  | none => ⟨n - 1, by omega⟩

/-- The short (band) identifiers of the grid filters
(`short_filters`, source line 272). -/
def shortFilters {n f : Nat} (g : SEDGrid n f) : List String :=
  (List.finRange f).map (fun k => shortName (g.filters k))

/-- The completeness-filter configuration error message (source lines
274-279). -/
def complErrMsg {n f : Nat} (g : SEDGrid n f) (compl_filter : String) : String :=
  "Requested completeness filter not present:" ++ strUpper compl_filter
    ++ "\nPossible filters:" ++ joinNewline (shortFilters g)

/-- Resolution of the per-model completeness summary `model_compl`
(source lines 269-283): `"max"` (case-insensitive) takes the maximum over
the filter axis; otherwise the requested name is matched, upper-cased,
against the token after the final underscore of each grid filter, and a
configuration error listing the valid short names is raised when absent. -/
def modelCompl {n f : Nat} (g : SEDGrid n f) (nm : NoiseModel n f)
    (compl_filter : String) : Except String (Fin n → ℚ) :=
  if strLower compl_filter = "max" then
    .ok (fun i => npRowMax (fun k => nm.completeness i k))
  else
    match (List.finRange f).find?
        (fun k => shortName (g.filters k) = strUpper compl_filter) with
    | some filter_k => .ok (fun i => nm.completeness i filter_k)
    | none => .error (complErrMsg g compl_filter)

/-- The per-filter body of the simulation loop (source lines 310-345): draw
the noisy fluxes for filter `k`, then assign the six columns
`{BAND}_FLUX`, `{BAND}_RATE`, `{BAND}_VEGA`, `{BAND}_INPUT_FLUX`,
`{BAND}_INPUT_RATE`, `{BAND}_INPUT_VEGA` in source order.  The `nsim`
normal draws advance the generator counter. -/
def filterStep (X : Externals) {n f : Nat} (g : SEDGrid n f) (nm : NoiseModel n f)
    (nsim : Nat) (vega_flux : Fin f → ℚ) (sim_indx : Fin nsim → Fin n)
    (acc : SimTable × RngState) (k : Fin f) : SimTable × RngState :=
  let ot := acc.1
  let σ := acc.2
  let bname := shortName (g.filters k)
  let simflux := (List.finRange nsim).map (fun j =>
    npNormal (g.seds (sim_indx j) k + nm.bias (sim_indx j) k)
      (model_unc nm (sim_indx j) k) (X.gauss σ.seed (σ.counter + j.val)))
  let ot := tableSet ot (bname ++ "_FLUX") simflux
  let rate := simflux.map (fun x => x / vega_flux k)
  let ot := tableSet ot (bname ++ "_RATE") rate
  let ot := tableSet ot (bname ++ "_VEGA") (rate.map (magOfRate X.log10))
  let inputflux := (List.finRange nsim).map (fun j => g.seds (sim_indx j) k)
  let ot := tableSet ot (bname ++ "_INPUT_FLUX") inputflux
  let irate := inputflux.map (fun x => x / vega_flux k)
  let ot := tableSet ot (bname ++ "_INPUT_RATE") irate
  let ot := tableSet ot (bname ++ "_INPUT_VEGA") (irate.map (magOfRate X.log10))
  (ot, ⟨σ.seed, σ.counter + nsim⟩)

/-- Assign a list of named columns in order (a run of consecutive
`ot[name] = col` statements). -/
def tableSetPairs (t : SimTable) (ps : SimTable) : SimTable :=
  ps.foldl (fun t p => tableSet t p.1 p.2) t

/-- The three noisy-stream column names of one band, in emission order. -/
def simStreamNames (b : String) : List String :=
  [b ++ "_FLUX", b ++ "_RATE", b ++ "_VEGA"]

/-- The three truth-stream column names of one band, in emission order. -/
def truthStreamNames (b : String) : List String :=
  [b ++ "_INPUT_FLUX", b ++ "_INPUT_RATE", b ++ "_INPUT_VEGA"]

/-- All six column names one filter contributes, in emission order. -/
def sixNames (b : String) : List String := simStreamNames b ++ truthStreamNames b

/-- The six (name, column) pairs filter `k` contributes when the generator
reaches it with the global generator at seed `s` and counter `c`. -/
def blockPairs (X : Externals) {n f : Nat} (g : SEDGrid n f) (nm : NoiseModel n f)
    (nsim : Nat) (vega_flux : Fin f → ℚ) (sim_indx : Fin nsim → Fin n)
    (s c : Nat) (k : Fin f) : SimTable :=
  let bname := shortName (g.filters k)
  let simflux := (List.finRange nsim).map (fun j =>
    npNormal (g.seds (sim_indx j) k + nm.bias (sim_indx j) k)
      (model_unc nm (sim_indx j) k) (X.gauss s (c + j.val)))
  let rate := simflux.map (fun x => x / vega_flux k)
  let inputflux := (List.finRange nsim).map (fun j => g.seds (sim_indx j) k)
  let irate := inputflux.map (fun x => x / vega_flux k)
  [(bname ++ "_FLUX", simflux),
   (bname ++ "_RATE", rate),
   (bname ++ "_VEGA", rate.map (magOfRate X.log10)),
   (bname ++ "_INPUT_FLUX", inputflux),
   (bname ++ "_INPUT_RATE", irate),
   (bname ++ "_INPUT_VEGA", irate.map (magOfRate X.log10))]

/-- The concatenation of the per-filter blocks, threading the generator
counter (each filter consumes `nsim` normal deviates). -/
def blocksFrom (X : Externals) {n f : Nat} (g : SEDGrid n f) (nm : NoiseModel n f)
    (nsim : Nat) (vega_flux : Fin f → ℚ) (sim_indx : Fin nsim → Fin n)
    (s : Nat) : Nat → List (Fin f) → SimTable
  | _, [] => []
  | c, k :: ks =>
    blockPairs X g nm nsim vega_flux sim_indx s c k
      ++ blocksFrom X g nm nsim vega_flux sim_indx s (c + nsim) ks

/-- The parameter (name, column) pairs appended after the filter loop
(source lines 347-349). -/
def paramPairs {n f : Nat} (g : SEDGrid n f) (nsim : Nat)
    (sim_indx : Fin nsim → Fin n) : SimTable :=
  g.qnames.map (fun qname =>
    (qname, (List.finRange nsim).map (fun j => g.cols qname (sim_indx j))))

/-- The sample index sequence drawn by the generator: with a supplied seed
the generator is reset, so index `j` is a function of the seed and `j` only. -/
def genIdx (X : Externals) {n : Nat} (hn : 0 < n) (p : Fin n → ℚ)
    (ranseed nsim : Nat) : Fin nsim → Fin n :=
  fun j => npChoiceIndex hn p (X.uniform ranseed j.val)

/-- The full column-name layout of the output table: six names per filter in
grid filter order, then the grid parameter names in declared order. -/
def outputNames {n f : Nat} (g : SEDGrid n f) : List String :=
  ((List.finRange f).map (fun k => sixNames (shortName (g.filters k)))).flatten
    ++ g.qnames

/-- The closed form of the output table. -/
def fullTable (X : Externals) {n f : Nat} (g : SEDGrid n f) (nm : NoiseModel n f)
    (nsim : Nat) (vega_flux : Fin f → ℚ) (sim_indx : Fin nsim → Fin n)
    (ranseed : Nat) : SimTable :=
  blocksFrom X g nm nsim vega_flux sim_indx ranseed nsim (List.finRange f)
    ++ paramPairs g nsim sim_indx

/-- `gen_SimObs_from_sedgrid` (source lines 207-351), as a function of the
incoming global-generator state `σ₀`.  `vega_flux` stands for the external
`Vega(...).getFlux(sedgrid.filters)` lookup.  The guard `if not None:` of
source line 296 is always true, so the seed is applied unconditionally; the
supplied-seed case `ranseed : Nat` is modelled. -/
def gen_SimObs_from_sedgrid (X : Externals) {n f : Nat} (g : SEDGrid n f)
    (nm : NoiseModel n f) (nsim : Nat) (compl_filter : String) (ranseed : Nat)
    (vega_flux : Fin f → ℚ) (weight_to_use : String) (σ₀ : RngState) :
    Except String (SimTable × RngState) := do
  let model_compl ← modelCompl g nm compl_filter
  if hn : 0 < n then
    let gridweights := gridweightsOf (g.cols weight_to_use) model_compl
    let σ₁ := npSeed ranseed σ₀
    let sim_indx : Fin nsim → Fin n := fun j =>
      npChoiceIndex hn gridweights (X.uniform σ₁.seed (σ₁.counter + j.val))
    let σ₂ : RngState := ⟨σ₁.seed, σ₁.counter + nsim⟩
    let acc := (List.finRange f).foldl (filterStep X g nm nsim vega_flux sim_indx) ([], σ₂)
    let ot := g.qnames.foldl (fun t qname =>
      tableSet t qname ((List.finRange nsim).map (fun j => g.cols qname (sim_indx j)))) acc.1
    pure (ot, acc.2)
  else
    throw "a must be non-empty"

/-- The `Observations` catalog state relevant to flux lookups: the internal
filter names, the alias map built in `__init__` (source lines 55-57), the
backing table of named columns, and the per-filter vega reference fluxes. -/
structure ObsCatalog where
  filters : List String
  filter_aliases : String → String
  data : SimTable
  vega_flux : List ℚ

/-- Evaluate an option-valued function across a list, failing if any single
lookup fails (a Python loop or comprehension whose body may raise). -/
def mapOpt {α β : Type} (h : α → Option β) : List α → Option (List β)
  | [] => some []
  | x :: xs => (h x).bind (fun y => (mapOpt h xs).map (fun ys => y :: ys))

/-- `Observations.getFlux` (source lines 136-167): for each internal filter
name, read the column named by its alias at row `num` and multiply by the
vega reference flux.  A missing column or row is a lookup failure. -/
def getFlux (c : ObsCatalog) (num : Nat) : Option (List ℚ) :=
  mapOpt (fun p =>
    (tableGet c.data (c.filter_aliases p.1)).bind (fun col =>
      (col.get? num).map (fun x => x * p.2))) (c.filters.zip c.vega_flux)

/-- `Observations.getFluxerr` (source lines 169-178): for each internal
filter name `ok`, read the column named `ok + "_err"` at row `num` — the
alias map is not consulted and no calibration is applied. -/
def getFluxerr (c : ObsCatalog) (num : Nat) : Option (List ℚ) :=
  mapOpt (fun ok =>
    (tableGet c.data (ok ++ "_err")).bind (fun col => col.get? num)) c.filters

/-- An IEEE-754 double as numpy sees it in the weight-normalization path:
a finite value, a signed infinity, or NaN. -/
inductive RVal where
  | fin : ℚ → RVal
  | pinf : RVal
  | ninf : RVal
  | nan : RVal
deriving DecidableEq

/-- IEEE addition on `RVal` (NaN propagates; opposite infinities give NaN). -/
def RVal.add : RVal → RVal → RVal
  | nan, _ => nan
  | _, nan => nan
  | pinf, ninf => nan
  | ninf, pinf => nan
  | pinf, _ => pinf
  | _, pinf => pinf
  | ninf, _ => ninf
  | _, ninf => ninf
  | fin a, fin b => fin (a + b)

/-- IEEE division on `RVal`: NaN propagates, `inf/inf` is NaN, finite over
zero is a signed infinity (`0/0` is NaN), finite over infinity is zero. -/
def RVal.div : RVal → RVal → RVal
  | nan, _ => nan
  | _, nan => nan
  | pinf, pinf => nan
  | pinf, ninf => nan
  | ninf, pinf => nan
  | ninf, ninf => nan
  | fin _, pinf => fin 0
  | fin _, ninf => fin 0
  | pinf, fin b => if b < 0 then ninf else pinf
  | ninf, fin b => if b < 0 then pinf else ninf
  | fin a, fin b =>
    if b = 0 then
      (if a = 0 then nan else if 0 < a then pinf else ninf)
    else fin (a / b)

/-- IEEE `x != x` test. -/
def RVal.isNan : RVal → Bool
  | nan => true
  | _ => false

/-- IEEE `x < 0` test (false on NaN). -/
def RVal.ltZero : RVal → Bool
  | ninf => true
  | fin a => decide (a < 0)
  | _ => false

/-- `np.sum` of a double vector. -/
def psum (l : List RVal) : RVal := l.foldl RVal.add (RVal.fin 0)

/-- IEEE test `abs(s - 1) > atol` (false on NaN, true on infinities). -/
def sumOffTol (s : RVal) (atol : ℚ) : Bool :=
  match s with
  | RVal.fin q => decide (atol < |q - 1|)
  | RVal.pinf => true
  | RVal.ninf => true
  | RVal.nan => false

/-- `gridweights = gridweights / np.sum(gridweights)` (source line 293) in
IEEE arithmetic. -/
def normalizeWeights (raw : List RVal) : List RVal :=
  raw.map (fun x => RVal.div x (psum raw))

/-- The input validation `np.random.choice` performs on `p` before drawing
any index: reject a NaN sum, then negative entries, then a sum that is not
1 within tolerance. -/
def npChoiceValidate (atol : ℚ) (p : List RVal) : Except String Unit :=
  if (psum p).isNan then
    .error "probabilities contain NaN"
  else if p.any RVal.ltZero then
    .error "probabilities are not non-negative"
  else if sumOffTol (psum p) atol then
    .error "probabilities do not sum to 1"
  else .ok ()

/-- The finite part of an `RVal` (0 on non-finite values). -/
def RVal.finPart : RVal → ℚ
  | fin q => q
  | _ => 0

/-- A two-model, one-filter fixture grid. -/
def demoGrid : SEDGrid 2 1 where
  seds := fun i _ => (i.val : ℚ) + 1
  filters := fun _ => "HST_F475W"
  cols := fun _ _ => 1
  qnames := ["M_ini"]

/-- A noiseless fixture noise model. -/
def demoNoise : NoiseModel 2 1 where
  bias := fun _ _ => 0
  error := fun _ _ => 0
  completeness := fun _ _ => 1

/-- Fixture deterministic deviate sources. -/
def demoX : Externals where
  uniform := fun _ _ => 1/4
  gauss := fun _ _ => 0
  log10 := fun _ => 0

/-- A fixture catalog whose columns exist only under aliased names. -/
def demoCatalog : ObsCatalog where
  filters := ["HST_F475W"]
  filter_aliases := fun _ => "flux475"
  data := [("flux475", [3]), ("flux475_err", [1])]
  vega_flux := [2]

theorem tableNames_append (a b : SimTable) :
    tableNames (a ++ b) = tableNames a ++ tableNames b := by
  simp [tableNames]

theorem tableSet_fresh (t : SimTable) (name : String) (col : List ℚ)
    (h : name ∉ tableNames t) : tableSet t name col = t ++ [(name, col)] := by
  have hany : t.any (fun e => e.1 = name) = false := by
    rw [List.any_eq_false]
    intro e he
    simp only [decide_eq_true_eq]
    intro hee
    exact h (by simp only [tableNames, List.mem_map]; exact ⟨e, he, hee⟩)
  simp [tableSet, hany]

theorem tableSetPairs_append : ∀ (ps t : SimTable),
    (tableNames t ++ tableNames ps).Nodup → tableSetPairs t ps = t ++ ps := by
  intro ps
  induction ps with
  | nil => intro t _; simp [tableSetPairs]
  | cons p ps ih =>
    intro t h
    have hd := List.nodup_append.mp h
    have hfresh : p.1 ∉ tableNames t := by
      intro hmem
      exact hd.2.2 hmem (by simp [tableNames])
    have hstep : tableSet t p.1 p.2 = t ++ [p] := by
      rw [tableSet_fresh t p.1 p.2 hfresh]
    have : tableSetPairs t (p :: ps) = tableSetPairs (t ++ [p]) ps := by
      simp only [tableSetPairs, List.foldl_cons, hstep]
    rw [this, ih]
    · simp
    · have : tableNames (t ++ [p]) ++ tableNames ps
          = tableNames t ++ tableNames (p :: ps) := by
        simp [tableNames_append, tableNames]
      rw [this]
      exact h

theorem tableGet_of_mem : ∀ (t : SimTable), (tableNames t).Nodup →
    ∀ {name : String} {col : List ℚ}, (name, col) ∈ t → tableGet t name = some col := by
  intro t
  induction t with
  | nil => intro _ name col hm; cases hm
  | cons e t ih =>
    intro h name col hm
    have h' : (e.1 :: tableNames t).Nodup := h
    have hnodup := List.nodup_cons.mp h'
    rw [List.mem_cons] at hm
    by_cases he : e.1 = name
    · rcases hm with h1 | h2
      · have hfind : List.find? (fun e => e.1 = name) ((name, col) :: t)
            = some (name, col) := List.find?_cons_of_pos _ (by simp)
        rw [← h1]
        simp [tableGet, hfind]
      · exfalso
        apply hnodup.1
        rw [he]
        simp only [tableNames, List.mem_map]
        exact ⟨(name, col), h2, rfl⟩
    · rcases hm with h1 | h2
      · exact absurd (by rw [← h1]) he
      · have hskip : List.find? (fun e => e.1 = name) (e :: t)
            = List.find? (fun e => e.1 = name) t := by
          apply List.find?_cons_of_neg
          simpa using he
        unfold tableGet
        rw [hskip]
        exact ih hnodup.2 h2

theorem blockPairs_names (X : Externals) {n f : Nat} (g : SEDGrid n f)
    (nm : NoiseModel n f) (nsim : Nat) (vega : Fin f → ℚ)
    (sim_indx : Fin nsim → Fin n) (s c : Nat) (k : Fin f) :
    tableNames (blockPairs X g nm nsim vega sim_indx s c k)
      = sixNames (shortName (g.filters k)) := by
  simp [blockPairs, tableNames, sixNames, simStreamNames, truthStreamNames]

theorem filterStep_eq (X : Externals) {n f : Nat} (g : SEDGrid n f)
    (nm : NoiseModel n f) (nsim : Nat) (vega : Fin f → ℚ)
    (sim_indx : Fin nsim → Fin n) (ot : SimTable) (σ : RngState) (k : Fin f) :
    filterStep X g nm nsim vega sim_indx (ot, σ) k
      = (tableSetPairs ot (blockPairs X g nm nsim vega sim_indx σ.seed σ.counter k),
         ⟨σ.seed, σ.counter + nsim⟩) := rfl

theorem filterStep_eq' (X : Externals) {n f : Nat} (g : SEDGrid n f)
    (nm : NoiseModel n f) (nsim : Nat) (vega : Fin f → ℚ)
    (sim_indx : Fin nsim → Fin n) (ot : SimTable) (s c : Nat) (k : Fin f) :
    filterStep X g nm nsim vega sim_indx (ot, ⟨s, c⟩) k
      = (tableSetPairs ot (blockPairs X g nm nsim vega sim_indx s c k),
         ⟨s, c + nsim⟩) := rfl

theorem blocksFrom_names (X : Externals) {n f : Nat} (g : SEDGrid n f)
    (nm : NoiseModel n f) (nsim : Nat) (vega : Fin f → ℚ)
    (sim_indx : Fin nsim → Fin n) (s : Nat) :
    ∀ (ks : List (Fin f)) (c : Nat),
      tableNames (blocksFrom X g nm nsim vega sim_indx s c ks)
        = (ks.map (fun k => sixNames (shortName (g.filters k)))).flatten := by
  intro ks
  induction ks with
  | nil => intro c; rfl
  | cons k ks ih =>
    intro c
    simp [blocksFrom, tableNames_append, blockPairs_names, ih]

theorem foldl_filterStep (X : Externals) {n f : Nat} (g : SEDGrid n f)
    (nm : NoiseModel n f) (nsim : Nat) (vega : Fin f → ℚ)
    (sim_indx : Fin nsim → Fin n) :
    ∀ (ks : List (Fin f)) (t : SimTable) (s c : Nat),
      (tableNames t ++ (ks.map (fun k => sixNames (shortName (g.filters k)))).flatten).Nodup →
      ks.foldl (filterStep X g nm nsim vega sim_indx) (t, ⟨s, c⟩)
        = (t ++ blocksFrom X g nm nsim vega sim_indx s c ks,
           ⟨s, c + nsim * ks.length⟩) := by
  intro ks
  induction ks with
  | nil =>
    intro t s c _
    simp [blocksFrom]
  | cons k ks ih =>
    intro t s c h
    have hsix : tableNames t ++ (((k :: ks).map
        (fun k => sixNames (shortName (g.filters k)))).flatten)
        = (tableNames t ++ sixNames (shortName (g.filters k)))
          ++ (ks.map (fun k => sixNames (shortName (g.filters k)))).flatten := by
      simp
    rw [hsix] at h
    have hset : (tableNames t
        ++ tableNames (blockPairs X g nm nsim vega sim_indx s c k)).Nodup := by
      rw [blockPairs_names]
      exact h.of_append_left
    rw [List.foldl_cons, filterStep_eq', tableSetPairs_append _ _ hset, ih]
    · have e1 : blocksFrom X g nm nsim vega sim_indx s c (k :: ks)
        = blockPairs X g nm nsim vega sim_indx s c k
          ++ blocksFrom X g nm nsim vega sim_indx s (c + nsim) ks := rfl
      rw [e1]
      refine Prod.ext ?_ ?_
      · simp [List.append_assoc]
      · show RngState.mk s (c + nsim + nsim * ks.length)
          = RngState.mk s (c + nsim * (k :: ks).length)
        simp only [List.length_cons]
        congr 1
        ring
    · rw [tableNames_append, blockPairs_names]
      simpa using h

theorem foldl_tableSet_map (colof : String → List ℚ) :
    ∀ (qs : List String) (t : SimTable), (tableNames t ++ qs).Nodup →
      qs.foldl (fun t q => tableSet t q (colof q)) t
        = t ++ qs.map (fun q => (q, colof q)) := by
  intro qs t h
  have h1 : qs.foldl (fun t q => tableSet t q (colof q)) t
      = tableSetPairs t (qs.map (fun q => (q, colof q))) := by
    simp [tableSetPairs, List.foldl_map]
  rw [h1, tableSetPairs_append]
  have : tableNames (qs.map (fun q => (q, colof q))) = qs := by
    simp only [tableNames, List.map_map]
    show qs.map (fun q => q) = qs
    simp
  rw [this]
  exact h

theorem gen_eq_ok (X : Externals) {n f : Nat} (g : SEDGrid n f) (nm : NoiseModel n f)
    (nsim : Nat) (cf : String) (ranseed : Nat) (vega : Fin f → ℚ) (w : String)
    (σ₀ : RngState) (mc : Fin n → ℚ) (hmc : modelCompl g nm cf = .ok mc)
    (hn : 0 < n) (hnodup : (outputNames g).Nodup) :
    gen_SimObs_from_sedgrid X g nm nsim cf ranseed vega w σ₀ =
      .ok (fullTable X g nm nsim vega
            (genIdx X hn (gridweightsOf (g.cols w) mc) ranseed nsim) ranseed,
        ⟨ranseed, nsim + nsim * f⟩) := by
  have hflat : ((List.finRange f).map
      (fun k => sixNames (shortName (g.filters k)))).flatten.Nodup := by
    have := hnodup
    unfold outputNames at this
    exact this.of_append_left
  unfold gen_SimObs_from_sedgrid
  rw [hmc]
  show (if hn' : 0 < n then _ else _ : Except String (SimTable × RngState)) = _
  rw [dif_pos hn]
  simp only [npSeed, Nat.zero_add]
  rw [foldl_filterStep X g nm nsim vega _ (List.finRange f) [] ranseed nsim
    (by simpa [tableNames] using hflat)]
  simp only []
  rw [foldl_tableSet_map _ g.qnames _ ?hq]
  case hq =>
    rw [tableNames_append]
    rw [blocksFrom_names]
    simpa [tableNames, outputNames] using hnodup
  simp only [List.length_finRange, List.nil_append]
  rfl

theorem paramPairs_names {n f : Nat} (g : SEDGrid n f) (nsim : Nat)
    (sim_indx : Fin nsim → Fin n) :
    tableNames (paramPairs g nsim sim_indx) = g.qnames := by
  simp only [paramPairs, tableNames, List.map_map]
  show g.qnames.map (fun q => q) = g.qnames
  simp

theorem fullTable_names (X : Externals) {n f : Nat} (g : SEDGrid n f)
    (nm : NoiseModel n f) (nsim : Nat) (vega : Fin f → ℚ)
    (sim_indx : Fin nsim → Fin n) (ranseed : Nat) :
    tableNames (fullTable X g nm nsim vega sim_indx ranseed) = outputNames g := by
  unfold fullTable outputNames
  rw [tableNames_append, blocksFrom_names, paramPairs_names]

theorem mem_blocksFrom (X : Externals) {n f : Nat} (g : SEDGrid n f)
    (nm : NoiseModel n f) (nsim : Nat) (vega : Fin f → ℚ)
    (sim_indx : Fin nsim → Fin n) (s : Nat) :
    ∀ (ks : List (Fin f)) (c : Nat) (k : Fin f), k ∈ ks →
      ∃ c', ∀ p ∈ blockPairs X g nm nsim vega sim_indx s c' k,
        p ∈ blocksFrom X g nm nsim vega sim_indx s c ks := by
  intro ks
  induction ks with
  | nil => intro c k hk; cases hk
  | cons k0 ks ih =>
    intro c k hk
    have e : blocksFrom X g nm nsim vega sim_indx s c (k0 :: ks)
        = blockPairs X g nm nsim vega sim_indx s c k0
          ++ blocksFrom X g nm nsim vega sim_indx s (c + nsim) ks := rfl
    rw [List.mem_cons] at hk
    rcases hk with h1 | h2
    · subst h1
      refine ⟨c, fun p hp => ?_⟩
      rw [e]
      exact List.mem_append_left _ hp
    · obtain ⟨c', hc'⟩ := ih (c + nsim) k h2
      refine ⟨c', fun p hp => ?_⟩
      rw [e]
      exact List.mem_append_right _ (hc' p hp)

theorem mem_blocksFrom_inv (X : Externals) {n f : Nat} (g : SEDGrid n f)
    (nm : NoiseModel n f) (nsim : Nat) (vega : Fin f → ℚ)
    (sim_indx : Fin nsim → Fin n) (s : Nat) :
    ∀ (ks : List (Fin f)) (c : Nat) (p : String × List ℚ),
      p ∈ blocksFrom X g nm nsim vega sim_indx s c ks →
      ∃ k ∈ ks, ∃ c', p ∈ blockPairs X g nm nsim vega sim_indx s c' k := by
  intro ks
  induction ks with
  | nil => intro c p hp; cases hp
  | cons k0 ks ih =>
    intro c p hp
    have e : blocksFrom X g nm nsim vega sim_indx s c (k0 :: ks)
        = blockPairs X g nm nsim vega sim_indx s c k0
          ++ blocksFrom X g nm nsim vega sim_indx s (c + nsim) ks := rfl
    rw [e, List.mem_append] at hp
    rcases hp with h1 | h2
    · exact ⟨k0, List.mem_cons_self _ _, c, h1⟩
    · obtain ⟨k, hk, c', hc'⟩ := ih (c + nsim) p h2
      exact ⟨k, List.mem_cons_of_mem _ hk, c', hc'⟩

theorem blockPairs_col_length (X : Externals) {n f : Nat} (g : SEDGrid n f)
    (nm : NoiseModel n f) (nsim : Nat) (vega : Fin f → ℚ)
    (sim_indx : Fin nsim → Fin n) (s c : Nat) (k : Fin f)
    (p : String × List ℚ) (hp : p ∈ blockPairs X g nm nsim vega sim_indx s c k) :
    p.2.length = nsim := by
  simp only [blockPairs, List.mem_cons, List.not_mem_nil, or_false] at hp
  rcases hp with h | h | h | h | h | h <;> subst h <;>
    simp [List.length_map, List.length_finRange]

theorem paramPairs_col_length {n f : Nat} (g : SEDGrid n f) (nsim : Nat)
    (sim_indx : Fin nsim → Fin n) (p : String × List ℚ)
    (hp : p ∈ paramPairs g nsim sim_indx) : p.2.length = nsim := by
  simp only [paramPairs, List.mem_map] at hp
  obtain ⟨q, _, hq⟩ := hp
  rw [← hq]
  simp [List.length_map, List.length_finRange]

theorem fullTable_get_block (X : Externals) {n f : Nat} (g : SEDGrid n f)
    (nm : NoiseModel n f) (nsim : Nat) (vega : Fin f → ℚ)
    (sim_indx : Fin nsim → Fin n) (ranseed : Nat)
    (hnodup : (outputNames g).Nodup) (k : Fin f) :
    ∃ c', ∀ (name : String) (col : List ℚ),
      (name, col) ∈ blockPairs X g nm nsim vega sim_indx ranseed c' k →
      tableGet (fullTable X g nm nsim vega sim_indx ranseed) name = some col := by
  obtain ⟨c', hc'⟩ := mem_blocksFrom X g nm nsim vega sim_indx ranseed
    (List.finRange f) nsim k (List.mem_finRange k)
  refine ⟨c', fun name col hm => ?_⟩
  apply tableGet_of_mem
  · rw [fullTable_names]
    exact hnodup
  · exact List.mem_append_left _ (hc' (name, col) hm)

theorem fullTable_get_param (X : Externals) {n f : Nat} (g : SEDGrid n f)
    (nm : NoiseModel n f) (nsim : Nat) (vega : Fin f → ℚ)
    (sim_indx : Fin nsim → Fin n) (ranseed : Nat)
    (hnodup : (outputNames g).Nodup) (q : String) (hq : q ∈ g.qnames) :
    tableGet (fullTable X g nm nsim vega sim_indx ranseed) q
      = some ((List.finRange nsim).map (fun j => g.cols q (sim_indx j))) := by
  apply tableGet_of_mem
  · rw [fullTable_names]
    exact hnodup
  · refine List.mem_append_right _ ?_
    simp only [paramPairs, List.mem_map]
    exact ⟨q, hq, rfl⟩

theorem fullTable_col_length (X : Externals) {n f : Nat} (g : SEDGrid n f)
    (nm : NoiseModel n f) (nsim : Nat) (vega : Fin f → ℚ)
    (sim_indx : Fin nsim → Fin n) (ranseed : Nat)
    (p : String × List ℚ) (hp : p ∈ fullTable X g nm nsim vega sim_indx ranseed) :
    p.2.length = nsim := by
  unfold fullTable at hp
  rw [List.mem_append] at hp
  rcases hp with h | h
  · obtain ⟨k, _, c', hc'⟩ := mem_blocksFrom_inv X g nm nsim vega sim_indx
      ranseed (List.finRange f) nsim p h
    exact blockPairs_col_length X g nm nsim vega sim_indx ranseed c' k p hc'
  · exact paramPairs_col_length g nsim sim_indx p h

theorem list_sum_map_div (l : List ℚ) (S : ℚ) :
    (l.map (fun x => x / S)).sum = l.sum / S := by
  induction l with
  | nil => simp
  | cons x xs ih => simp [ih, add_div]

/-- Claim C1: for inputs the sampler accepts (non-negative raw weights with a
positive sum), the normalized selection distribution has length `n` (it is a
vector over `Fin n`), every entry non-negative, sum exactly 1, and entry `i`
proportional to `weight[i] * completeness_summary[i]` with the raw sum as
the constant of proportionality. -/
theorem selection_distribution_props {n : Nat} (w mc : Fin n → ℚ)
    (hnn : ∀ i, 0 ≤ w i * mc i)
    (hpos : 0 < sumFin (fun j => w j * mc j)) :
    (∀ i, 0 ≤ gridweightsOf w mc i)
      ∧ sumFin (gridweightsOf w mc) = 1
      ∧ (∀ i, gridweightsOf w mc i * sumFin (fun j => w j * mc j) = w i * mc i) := by
  have hS : sumFin (fun j => w j * mc j) ≠ 0 := ne_of_gt hpos
  refine ⟨?_, ?_, ?_⟩
  · intro i
    exact div_nonneg (hnn i) (le_of_lt hpos)
  · unfold sumFin gridweightsOf
    rw [show (List.finRange n).map
          (fun i => (w i * mc i) / sumFin (fun j => w j * mc j))
        = ((List.finRange n).map (fun i => w i * mc i)).map
            (fun x => x / sumFin (fun j => w j * mc j)) by rw [List.map_map]; rfl]
    rw [list_sum_map_div]
    exact div_self hS
  · intro i
    unfold gridweightsOf
    exact div_mul_cancel₀ _ hS

theorem selection_distribution_props_witness :
    (∀ i, 0 ≤ gridweightsOf (fun _ : Fin 2 => (1 : ℚ)) (fun _ => 1) i)
      ∧ sumFin (gridweightsOf (fun _ : Fin 2 => (1 : ℚ)) (fun _ => 1)) = 1
      ∧ (∀ i, gridweightsOf (fun _ : Fin 2 => (1 : ℚ)) (fun _ => 1) i
            * sumFin (fun _ : Fin 2 => (1 : ℚ) * 1) = (1 : ℚ) * 1) :=
  selection_distribution_props (fun _ => 1) (fun _ => 1)
    (fun _ => by norm_num)
    (by norm_num [sumFin, List.finRange_succ, List.finRange_zero])

/-- Claim C3: with a supplied seed, the generator resets the global random
state, so its entire result — the sample index sequence, every column of the
output table, and the final state — is independent of the prior global
state: two calls with identical grid, noise model, `nsim` and seed agree
exactly. -/
theorem seeded_determinism (X : Externals) {n f : Nat} (g : SEDGrid n f)
    (nm : NoiseModel n f) (nsim : Nat) (cf : String) (ranseed : Nat)
    (vega : Fin f → ℚ) (w : String) (σ₁ σ₂ : RngState) :
    gen_SimObs_from_sedgrid X g nm nsim cf ranseed vega w σ₁
      = gen_SimObs_from_sedgrid X g nm nsim cf ranseed vega w σ₂ := rfl

theorem foldl_filterStep_state (X : Externals) {n f : Nat} (g : SEDGrid n f)
    (nm : NoiseModel n f) (nsim : Nat) (vega : Fin f → ℚ)
    (sim_indx : Fin nsim → Fin n) :
    ∀ (ks : List (Fin f)) (t : SimTable) (s c : Nat),
      (ks.foldl (filterStep X g nm nsim vega sim_indx) (t, ⟨s, c⟩)).2
        = ⟨s, c + nsim * ks.length⟩ := by
  intro ks
  induction ks with
  | nil => intro t s c; simp
  | cons k ks ih =>
    intro t s c
    rw [List.foldl_cons, filterStep_eq', ih]
    congr 1
    simp only [List.length_cons]
    ring

/-- Claim C9 (amended): the generator leaves the grid and noise model
untouched (it only reads them), but it does mutate one piece of observable
state beyond its return value: the process-wide random generator.  After a
successful seeded call the global state equals the seed-reset state advanced
by the `nsim` index draws plus `nsim` normal draws per filter, whatever the
state was before the call. -/
theorem rng_state_effect (X : Externals) {n f : Nat} (g : SEDGrid n f)
    (nm : NoiseModel n f) (nsim : Nat) (cf : String) (ranseed : Nat)
    (vega : Fin f → ℚ) (w : String) (mc : Fin n → ℚ)
    (hmc : modelCompl g nm cf = .ok mc) (hn : 0 < n) (σ₀ : RngState) :
    ∃ ot, gen_SimObs_from_sedgrid X g nm nsim cf ranseed vega w σ₀
      = .ok (ot, ⟨ranseed, nsim + nsim * f⟩) := by
  unfold gen_SimObs_from_sedgrid
  rw [hmc]
  show ∃ ot, (if hn' : 0 < n then _ else _ : Except String (SimTable × RngState))
    = .ok (ot, ⟨ranseed, nsim + nsim * f⟩)
  rw [dif_pos hn]
  simp only [npSeed, Nat.zero_add]
  rw [foldl_filterStep_state]
  simp only [List.length_finRange]
  exact ⟨_, rfl⟩

/-- Claim C9 (counterexample): a successful call from the global state
(seed 0, counter 0) with seed 7 and one filter ends with the global state
(seed 7, counter 2) — observable state beyond the output table has changed,
refuting "no other observable state is modified". -/
theorem no_side_effects_cex :
    (gen_SimObs_from_sedgrid demoX demoGrid demoNoise 1 "max" 7
        (fun _ => 1) "weight" ⟨0, 0⟩).map Prod.snd = .ok (⟨7, 2⟩ : RngState)
      ∧ (gen_SimObs_from_sedgrid demoX demoGrid demoNoise 1 "max" 7
        (fun _ => 1) "weight" ⟨0, 0⟩).map Prod.snd ≠ .ok (⟨0, 0⟩ : RngState) := by
  constructor <;> decide

theorem rng_state_effect_witness :
    ∃ ot, gen_SimObs_from_sedgrid demoX demoGrid demoNoise 1 "max" 7
        (fun _ => 1) "weight" ⟨3, 5⟩ = .ok (ot, ⟨7, 2⟩) :=
  rng_state_effect demoX demoGrid demoNoise 1 "max" 7 (fun _ => 1) "weight"
    (fun i => npRowMax (fun k => demoNoise.completeness i k)) rfl (by decide) ⟨3, 5⟩

theorem foldl_max_le_self {β : Type} (v : β → ℚ) :
    ∀ (l : List β) (m : ℚ), m ≤ l.foldl (fun m j => max m (v j)) m := by
  intro l
  induction l with
  | nil => intro m; simp
  | cons x xs ih =>
    intro m
    exact le_trans (le_max_left m (v x)) (ih (max m (v x)))

theorem foldl_max_le_mem {β : Type} (v : β → ℚ) :
    ∀ (l : List β) (m : ℚ) (j : β), j ∈ l →
      v j ≤ l.foldl (fun m j => max m (v j)) m := by
  intro l
  induction l with
  | nil => intro m j hj; cases hj
  | cons x xs ih =>
    intro m j hj
    rcases List.mem_cons.mp hj with h | h
    · subst h
      exact le_trans (le_max_right m (v j)) (foldl_max_le_self v xs (max m (v j)))
    · exact ih (max m (v x)) j h

theorem foldl_max_eq_mem {β : Type} (v : β → ℚ) :
    ∀ (l : List β) (m : ℚ),
      l.foldl (fun m j => max m (v j)) m = m
        ∨ ∃ j ∈ l, l.foldl (fun m j => max m (v j)) m = v j := by
  intro l
  induction l with
  | nil => intro m; left; rfl
  | cons x xs ih =>
    intro m
    rcases ih (max m (v x)) with h | ⟨j, hj, hjeq⟩
    · rcases max_choice m (v x) with hm | hm
      · left
        rw [List.foldl_cons, h, hm]
      · right
        exact ⟨x, List.mem_cons_self _ _, by rw [List.foldl_cons, h, hm]⟩
    · right
      exact ⟨j, List.mem_cons_of_mem _ hj, by rw [List.foldl_cons, hjeq]⟩

theorem npRowMax_spec {f : Nat} (hf : 0 < f) (row : Fin f → ℚ) :
    (∀ k, row k ≤ npRowMax row) ∧ ∃ k, npRowMax row = row k := by
  unfold npRowMax
  split
  · rename_i heq
    exfalso
    have := List.length_finRange f
    rw [heq] at this
    simp at this
    omega
  · rename_i k ks heq
    constructor
    · intro k'
      have hk' : k' ∈ List.finRange f := List.mem_finRange k'
      rw [heq] at hk'
      rcases List.mem_cons.mp hk' with h | h
      · subst h
        exact foldl_max_le_self row ks (row k')
      · exact foldl_max_le_mem row ks (row k) k' h
    · rcases foldl_max_eq_mem row ks (row k) with h | ⟨j, _, hj⟩
      · exact ⟨k, h⟩
      · exact ⟨j, hj⟩

/-- Claim C7: a non-"max" completeness filter request is resolved against the
grid filters by comparing, case-insensitively, the token after the final
underscore (the first match is used); if no filter matches, the generator
raises the configuration error that lists the valid short filter names, and
it does so before any seeding or sampling; a "max" request gives each model
the maximum completeness over its filters. -/
theorem completeness_filter_resolution {n f : Nat} (g : SEDGrid n f)
    (nm : NoiseModel n f) (cf : String) :
    (strLower cf = "max" → 0 < f →
      ∃ mc, modelCompl g nm cf = .ok mc
        ∧ ∀ i, (∀ k, nm.completeness i k ≤ mc i) ∧ ∃ k, mc i = nm.completeness i k)
    ∧ (∀ filter_k : Fin f, strLower cf ≠ "max" →
        (List.finRange f).find?
            (fun k => shortName (g.filters k) = strUpper cf) = some filter_k →
        modelCompl g nm cf = .ok (fun i => nm.completeness i filter_k))
    ∧ (strLower cf ≠ "max" → (∀ k, shortName (g.filters k) ≠ strUpper cf) →
        modelCompl g nm cf = .error (complErrMsg g cf)
          ∧ ∀ (X : Externals) (nsim ranseed : Nat) (vega : Fin f → ℚ)
              (w : String) (σ₀ : RngState),
              gen_SimObs_from_sedgrid X g nm nsim cf ranseed vega w σ₀
                = .error (complErrMsg g cf)) := by
  refine ⟨?_, ?_, ?_⟩
  · intro hmax hf
    refine ⟨fun i => npRowMax (fun k => nm.completeness i k), ?_, ?_⟩
    · unfold modelCompl
      rw [if_pos hmax]
    · intro i
      exact ⟨(npRowMax_spec hf (fun k => nm.completeness i k)).1,
             (npRowMax_spec hf (fun k => nm.completeness i k)).2⟩
  · intro fk hne hfind
    unfold modelCompl
    rw [if_neg hne, hfind]
  · intro hne habs
    have hfind : (List.finRange f).find?
        (fun k => shortName (g.filters k) = strUpper cf) = none := by
      rw [List.find?_eq_none]
      intro k _
      simpa using habs k
    have hmc : modelCompl g nm cf = .error (complErrMsg g cf) := by
      unfold modelCompl
      rw [if_neg hne, hfind]
    refine ⟨hmc, fun X nsim ranseed vega w σ₀ => ?_⟩
    unfold gen_SimObs_from_sedgrid
    rw [hmc]
    rfl

theorem completeness_filter_resolution_witness :
    (∃ mc, modelCompl demoGrid demoNoise "max" = .ok mc
        ∧ ∀ i, (∀ k, demoNoise.completeness i k ≤ mc i)
            ∧ ∃ k, mc i = demoNoise.completeness i k)
      ∧ modelCompl demoGrid demoNoise "f475w"
          = .ok (fun i => demoNoise.completeness i ⟨0, Nat.zero_lt_one⟩)
      ∧ modelCompl demoGrid demoNoise "F999W"
          = .error (complErrMsg demoGrid "F999W") :=
  ⟨(completeness_filter_resolution demoGrid demoNoise "max").1 (by decide) (by decide),
   (completeness_filter_resolution demoGrid demoNoise "f475w").2.1
     ⟨0, Nat.zero_lt_one⟩ (by decide) (by decide),
   ((completeness_filter_resolution demoGrid demoNoise "F999W").2.2
     (by decide) (by decide)).1⟩

theorem blockPairs_flux_mem (X : Externals) {n f : Nat} (g : SEDGrid n f)
    (nm : NoiseModel n f) (nsim : Nat) (vega : Fin f → ℚ)
    (sim_indx : Fin nsim → Fin n) (s c : Nat) (k : Fin f) :
    (shortName (g.filters k) ++ "_FLUX",
      (List.finRange nsim).map (fun j =>
        npNormal (g.seds (sim_indx j) k + nm.bias (sim_indx j) k)
          (model_unc nm (sim_indx j) k) (X.gauss s (c + j.val))))
      ∈ blockPairs X g nm nsim vega sim_indx s c k := by
  simp [blockPairs]

theorem blockPairs_inputflux_mem (X : Externals) {n f : Nat} (g : SEDGrid n f)
    (nm : NoiseModel n f) (nsim : Nat) (vega : Fin f → ℚ)
    (sim_indx : Fin nsim → Fin n) (s c : Nat) (k : Fin f) :
    (shortName (g.filters k) ++ "_INPUT_FLUX",
      (List.finRange nsim).map (fun j => g.seds (sim_indx j) k))
      ∈ blockPairs X g nm nsim vega sim_indx s c k := by
  simp [blockPairs]

theorem blockPairs_rate_vega (X : Externals) {n f : Nat} (g : SEDGrid n f)
    (nm : NoiseModel n f) (nsim : Nat) (vega : Fin f → ℚ)
    (sim_indx : Fin nsim → Fin n) (s c : Nat) (k : Fin f) :
    ∃ r ir : List ℚ,
      (shortName (g.filters k) ++ "_RATE", r)
          ∈ blockPairs X g nm nsim vega sim_indx s c k
      ∧ (shortName (g.filters k) ++ "_VEGA", r.map (magOfRate X.log10))
          ∈ blockPairs X g nm nsim vega sim_indx s c k
      ∧ (shortName (g.filters k) ++ "_INPUT_RATE", ir)
          ∈ blockPairs X g nm nsim vega sim_indx s c k
      ∧ (shortName (g.filters k) ++ "_INPUT_VEGA", ir.map (magOfRate X.log10))
          ∈ blockPairs X g nm nsim vega sim_indx s c k := by
  refine ⟨((List.finRange nsim).map (fun j =>
      npNormal (g.seds (sim_indx j) k + nm.bias (sim_indx j) k)
        (model_unc nm (sim_indx j) k) (X.gauss s (c + j.val)))).map
          (fun x => x / vega k),
    ((List.finRange nsim).map (fun j => g.seds (sim_indx j) k)).map
      (fun x => x / vega k), ?_, ?_, ?_, ?_⟩ <;> simp [blockPairs]

/-- Claim C2: in a successful run, for every filter both the simulated and
the truth magnitude columns are the elementwise image of the corresponding
rate column under the magnitude map, which sends every non-positive rate to
the fixed sentinel `-99.999` (not a failure) and every positive rate to
`-2.5 * log10(rate)`. -/
theorem magnitude_sentinel_policy (X : Externals) {n f : Nat} (g : SEDGrid n f)
    (nm : NoiseModel n f) (nsim : Nat) (cf : String) (ranseed : Nat)
    (vega : Fin f → ℚ) (w : String) (σ₀ : RngState) (mc : Fin n → ℚ)
    (hmc : modelCompl g nm cf = .ok mc) (hn : 0 < n)
    (hnodup : (outputNames g).Nodup) :
    ∃ ot σf, gen_SimObs_from_sedgrid X g nm nsim cf ranseed vega w σ₀
        = .ok (ot, σf)
      ∧ (∀ q : ℚ, (q ≤ 0 → magOfRate X.log10 q = -(99999/1000))
          ∧ (0 < q → magOfRate X.log10 q = -(5/2) * X.log10 q))
      ∧ ∀ k : Fin f, ∃ r ir : List ℚ,
          tableGet ot (shortName (g.filters k) ++ "_RATE") = some r
          ∧ tableGet ot (shortName (g.filters k) ++ "_VEGA")
              = some (r.map (magOfRate X.log10))
          ∧ tableGet ot (shortName (g.filters k) ++ "_INPUT_RATE") = some ir
          ∧ tableGet ot (shortName (g.filters k) ++ "_INPUT_VEGA")
              = some (ir.map (magOfRate X.log10)) := by
  refine ⟨_, _, gen_eq_ok X g nm nsim cf ranseed vega w σ₀ mc hmc hn hnodup, ?_, ?_⟩
  · intro q
    constructor
    · intro hq
      simp [magOfRate, hq]
    · intro hq
      have hq' : ¬ q ≤ 0 := not_le.mpr hq
      simp [magOfRate, hq, hq']
  · intro k
    obtain ⟨c', hc'⟩ := fullTable_get_block X g nm nsim vega
      (genIdx X hn (gridweightsOf (g.cols w) mc) ranseed nsim) ranseed hnodup k
    obtain ⟨r, ir, h1, h2, h3, h4⟩ := blockPairs_rate_vega X g nm nsim vega
      (genIdx X hn (gridweightsOf (g.cols w) mc) ranseed nsim) ranseed c' k
    exact ⟨r, ir, hc' _ _ h1, hc' _ _ h2, hc' _ _ h3, hc' _ _ h4⟩

/-- Claim C5: in a successful run, every simulated flux entry has the form
`loc + scale * z`: a Gaussian draw with mean the truth flux plus the
noise-model bias at the sampled model and filter, and standard deviation the
absolute value of the stored (possibly signed) uncertainty; the scale is
never negative (so numpy's negative-scale rejection cannot fire), and a zero
stored uncertainty makes the simulated flux equal the biased flux exactly. -/
theorem noise_injection_gaussian_form (X : Externals) {n f : Nat}
    (g : SEDGrid n f) (nm : NoiseModel n f) (nsim : Nat) (cf : String)
    (ranseed : Nat) (vega : Fin f → ℚ) (w : String) (σ₀ : RngState)
    (mc : Fin n → ℚ) (hmc : modelCompl g nm cf = .ok mc) (hn : 0 < n)
    (hnodup : (outputNames g).Nodup) :
    ∃ (ot : SimTable) (σf : RngState) (sim_indx : Fin nsim → Fin n),
      gen_SimObs_from_sedgrid X g nm nsim cf ranseed vega w σ₀ = .ok (ot, σf)
      ∧ (∀ (i : Fin n) (kk : Fin f), 0 ≤ model_unc nm i kk)
      ∧ ∀ k : Fin f, ∃ z : Fin nsim → ℚ,
          tableGet ot (shortName (g.filters k) ++ "_FLUX")
            = some ((List.finRange nsim).map (fun j =>
                npNormal (g.seds (sim_indx j) k + nm.bias (sim_indx j) k)
                  (model_unc nm (sim_indx j) k) (z j)))
          ∧ ∀ j : Fin nsim, nm.error (sim_indx j) k = 0 →
              npNormal (g.seds (sim_indx j) k + nm.bias (sim_indx j) k)
                (model_unc nm (sim_indx j) k) (z j)
                = g.seds (sim_indx j) k + nm.bias (sim_indx j) k := by
  refine ⟨_, _, genIdx X hn (gridweightsOf (g.cols w) mc) ranseed nsim,
    gen_eq_ok X g nm nsim cf ranseed vega w σ₀ mc hmc hn hnodup, ?_, ?_⟩
  · intro i kk
    exact abs_nonneg _
  · intro k
    obtain ⟨c', hc'⟩ := fullTable_get_block X g nm nsim vega
      (genIdx X hn (gridweightsOf (g.cols w) mc) ranseed nsim) ranseed hnodup k
    refine ⟨fun j => X.gauss ranseed (c' + j.val), ?_, ?_⟩
    · exact hc' _ _ (blockPairs_flux_mem X g nm nsim vega _ ranseed c' k)
    · intro j hj
      unfold npNormal model_unc
      rw [hj]
      simp

/-- Claim C6: a successful run returns a table whose every column has
exactly `nsim` entries, whose truth-stream flux column for each filter is
exactly the grid flux at the sampled indices (no noise), and whose parameter
columns, appended after all filter columns in the grid's declared order,
hold the grid parameter values at the same sampled indices. -/
theorem output_row_alignment (X : Externals) {n f : Nat} (g : SEDGrid n f)
    (nm : NoiseModel n f) (nsim : Nat) (cf : String) (ranseed : Nat)
    (vega : Fin f → ℚ) (w : String) (σ₀ : RngState) (mc : Fin n → ℚ)
    (hmc : modelCompl g nm cf = .ok mc) (hn : 0 < n)
    (hnodup : (outputNames g).Nodup) :
    ∃ (ot : SimTable) (σf : RngState) (sim_indx : Fin nsim → Fin n),
      gen_SimObs_from_sedgrid X g nm nsim cf ranseed vega w σ₀ = .ok (ot, σf)
      ∧ (∀ p ∈ ot, p.2.length = nsim)
      ∧ tableNames ot = outputNames g
      ∧ (∀ k : Fin f, tableGet ot (shortName (g.filters k) ++ "_INPUT_FLUX")
          = some ((List.finRange nsim).map (fun j => g.seds (sim_indx j) k)))
      ∧ (∀ q ∈ g.qnames, tableGet ot q
          = some ((List.finRange nsim).map (fun j => g.cols q (sim_indx j)))) := by
  refine ⟨_, _, genIdx X hn (gridweightsOf (g.cols w) mc) ranseed nsim,
    gen_eq_ok X g nm nsim cf ranseed vega w σ₀ mc hmc hn hnodup, ?_, ?_, ?_, ?_⟩
  · intro p hp
    exact fullTable_col_length X g nm nsim vega _ ranseed p hp
  · exact fullTable_names X g nm nsim vega _ ranseed
  · intro k
    obtain ⟨c', hc'⟩ := fullTable_get_block X g nm nsim vega
      (genIdx X hn (gridweightsOf (g.cols w) mc) ranseed nsim) ranseed hnodup k
    exact hc' _ _ (blockPairs_inputflux_mem X g nm nsim vega _ ranseed c' k)
  · intro q hq
    exact fullTable_get_param X g nm nsim vega _ ranseed hnodup q hq

/-- Claim C8 (amended): for each filter, in grid filter order, the assembler
emits three simulated-stream columns (flux, rate, magnitude of the noisy
draw) followed by three truth-stream columns (flux, rate, magnitude of the
truth values) — six columns per filter in total, their names encoding the
band identifier, the quantity kind, and the stream. -/
theorem output_column_scheme (X : Externals) {n f : Nat} (g : SEDGrid n f)
    (nm : NoiseModel n f) (nsim : Nat) (cf : String) (ranseed : Nat)
    (vega : Fin f → ℚ) (w : String) (σ₀ : RngState) (mc : Fin n → ℚ)
    (hmc : modelCompl g nm cf = .ok mc) (hn : 0 < n)
    (hnodup : (outputNames g).Nodup) :
    ∃ ot σf,
      gen_SimObs_from_sedgrid X g nm nsim cf ranseed vega w σ₀ = .ok (ot, σf)
      ∧ tableNames ot
          = ((List.finRange f).map (fun k =>
              simStreamNames (shortName (g.filters k))
                ++ truthStreamNames (shortName (g.filters k)))).flatten
            ++ g.qnames
      ∧ (∀ b, (simStreamNames b).length = 3 ∧ (truthStreamNames b).length = 3) := by
  refine ⟨_, _, gen_eq_ok X g nm nsim cf ranseed vega w σ₀ mc hmc hn hnodup, ?_, ?_⟩
  · rw [fullTable_names]
    rfl
  · intro b
    exact ⟨rfl, rfl⟩

/-- Claim C8 (counterexample): on a concrete one-filter run the assembler
emits exactly three simulated-stream columns for the band `F475W`, not six:
the claim's count of six simulated-stream columns is wrong (six is the
per-filter total across both streams). -/
theorem output_six_sim_columns_cex :
    (gen_SimObs_from_sedgrid demoX demoGrid demoNoise 1 "max" 0
        (fun _ => 1) "weight" ⟨0, 0⟩).map
      (fun r => ((tableNames r.1).filter
        (fun s => s ∈ simStreamNames "F475W")).length) = .ok 3
      ∧ (3 : Nat) ≠ 6 := by
  constructor
  · decide
  · decide

theorem magnitude_sentinel_policy_witness :
    ∃ (ot : SimTable) (σf : RngState),
      gen_SimObs_from_sedgrid demoX demoGrid demoNoise 2 "max" 11
          (fun _ => 1) "weight" ⟨0, 0⟩ = .ok (ot, σf)
      ∧ (∀ q : ℚ, (q ≤ 0 → magOfRate demoX.log10 q = -(99999/1000))
          ∧ (0 < q → magOfRate demoX.log10 q = -(5/2) * demoX.log10 q))
      ∧ ∀ k : Fin 1, ∃ r ir : List ℚ,
          tableGet ot (shortName (demoGrid.filters k) ++ "_RATE") = some r
          ∧ tableGet ot (shortName (demoGrid.filters k) ++ "_VEGA")
              = some (r.map (magOfRate demoX.log10))
          ∧ tableGet ot (shortName (demoGrid.filters k) ++ "_INPUT_RATE") = some ir
          ∧ tableGet ot (shortName (demoGrid.filters k) ++ "_INPUT_VEGA")
              = some (ir.map (magOfRate demoX.log10)) :=
  magnitude_sentinel_policy demoX demoGrid demoNoise 2 "max" 11
    (fun _ => 1) "weight" ⟨0, 0⟩
    (fun i => npRowMax (fun k => demoNoise.completeness i k)) rfl
    (by decide) (by decide)

theorem noise_injection_gaussian_form_witness :
    ∃ (ot : SimTable) (σf : RngState) (sim_indx : Fin 2 → Fin 2),
      gen_SimObs_from_sedgrid demoX demoGrid demoNoise 2 "max" 11
          (fun _ => 1) "weight" ⟨0, 0⟩ = .ok (ot, σf)
      ∧ (∀ (i : Fin 2) (kk : Fin 1), 0 ≤ model_unc demoNoise i kk)
      ∧ ∀ k : Fin 1, ∃ z : Fin 2 → ℚ,
          tableGet ot (shortName (demoGrid.filters k) ++ "_FLUX")
            = some ((List.finRange 2).map (fun j =>
                npNormal (demoGrid.seds (sim_indx j) k + demoNoise.bias (sim_indx j) k)
                  (model_unc demoNoise (sim_indx j) k) (z j)))
          ∧ ∀ j : Fin 2, demoNoise.error (sim_indx j) k = 0 →
              npNormal (demoGrid.seds (sim_indx j) k + demoNoise.bias (sim_indx j) k)
                (model_unc demoNoise (sim_indx j) k) (z j)
                = demoGrid.seds (sim_indx j) k + demoNoise.bias (sim_indx j) k :=
  noise_injection_gaussian_form demoX demoGrid demoNoise 2 "max" 11
    (fun _ => 1) "weight" ⟨0, 0⟩
    (fun i => npRowMax (fun k => demoNoise.completeness i k)) rfl
    (by decide) (by decide)

theorem output_row_alignment_witness :
    ∃ (ot : SimTable) (σf : RngState) (sim_indx : Fin 2 → Fin 2),
      gen_SimObs_from_sedgrid demoX demoGrid demoNoise 2 "max" 11
          (fun _ => 1) "weight" ⟨0, 0⟩ = .ok (ot, σf)
      ∧ (∀ p ∈ ot, p.2.length = 2)
      ∧ tableNames ot = outputNames demoGrid
      ∧ (∀ k : Fin 1, tableGet ot (shortName (demoGrid.filters k) ++ "_INPUT_FLUX")
          = some ((List.finRange 2).map (fun j => demoGrid.seds (sim_indx j) k)))
      ∧ (∀ q ∈ demoGrid.qnames, tableGet ot q
          = some ((List.finRange 2).map (fun j => demoGrid.cols q (sim_indx j)))) :=
  output_row_alignment demoX demoGrid demoNoise 2 "max" 11
    (fun _ => 1) "weight" ⟨0, 0⟩
    (fun i => npRowMax (fun k => demoNoise.completeness i k)) rfl
    (by decide) (by decide)

theorem output_column_scheme_witness :
    ∃ (ot : SimTable) (σf : RngState),
      gen_SimObs_from_sedgrid demoX demoGrid demoNoise 2 "max" 11
          (fun _ => 1) "weight" ⟨0, 0⟩ = .ok (ot, σf)
      ∧ tableNames ot
          = ((List.finRange 1).map (fun k =>
              simStreamNames (shortName (demoGrid.filters k))
                ++ truthStreamNames (shortName (demoGrid.filters k)))).flatten
            ++ demoGrid.qnames
      ∧ (∀ b, (simStreamNames b).length = 3 ∧ (truthStreamNames b).length = 3) :=
  output_column_scheme demoX demoGrid demoNoise 2 "max" 11
    (fun _ => 1) "weight" ⟨0, 0⟩
    (fun i => npRowMax (fun k => demoNoise.completeness i k)) rfl
    (by decide) (by decide)

theorem mapOpt_isSome {α β : Type} (h : α → Option β) :
    ∀ (l : List α), (∀ x ∈ l, (h x).isSome = true) → (mapOpt h l).isSome = true := by
  intro l
  induction l with
  | nil => intro _; rfl
  | cons x xs ih =>
    intro hall
    obtain ⟨b, hb⟩ := Option.isSome_iff_exists.mp (hall x (List.mem_cons_self _ _))
    obtain ⟨bs, hbs⟩ := Option.isSome_iff_exists.mp
      (ih (fun y hy => hall y (List.mem_cons_of_mem _ hy)))
    simp [mapOpt, hb, hbs]

theorem mapOpt_eq_none {α β : Type} (h : α → Option β) :
    ∀ (l : List α) (x : α), x ∈ l → h x = none → mapOpt h l = none := by
  intro l
  induction l with
  | nil => intro x hx; cases hx
  | cons y ys ih =>
    intro x hx hnone
    rcases List.mem_cons.mp hx with h1 | h2
    · subst h1
      simp [mapOpt, hnone]
    · cases hy : h y with
      | none => simp [mapOpt, hy]
      | some b => simp [mapOpt, hy, ih x h2 hnone]

/-- Claim C10: `getFluxerr` reads, for each filter, the column named by the
canonical (internal) filter name with "_err" appended, never consulting the
`filter_aliases` map that `getFlux` uses; hence on a catalog whose columns
exist only under aliased names, `getFlux` succeeds while `getFluxerr` fails
with a missing-column lookup. -/
theorem getFluxerr_bypasses_aliases (c : ObsCatalog) (num : Nat)
    (hflux : ∀ s ∈ c.filters, ∃ col,
      tableGet c.data (c.filter_aliases s) = some col ∧ num < col.length)
    (hmiss : ∃ s ∈ c.filters, tableGet c.data (s ++ "_err") = none) :
    (getFlux c num).isSome = true ∧ getFluxerr c num = none := by
  constructor
  · apply mapOpt_isSome
    intro p hp
    obtain ⟨col, hcol, hnum⟩ := hflux p.1 (List.of_mem_zip hp).1
    rw [hcol]
    simp only [Option.some_bind]
    rw [List.get?_eq_get hnum]
    rfl
  · obtain ⟨s, hs, hnone⟩ := hmiss
    apply mapOpt_eq_none _ _ s hs
    rw [hnone]
    rfl

theorem getFluxerr_bypasses_aliases_witness :
    (getFlux demoCatalog 0).isSome = true ∧ getFluxerr demoCatalog 0 = none :=
  getFluxerr_bypasses_aliases demoCatalog 0
    (fun s hs => by
      have hs' : s = "HST_F475W" := by simpa [demoCatalog] using hs
      subst hs'
      exact ⟨[3], rfl, by decide⟩)
    ⟨"HST_F475W", by decide, by decide⟩

theorem RVal.add_nan_right : ∀ x : RVal, x.add RVal.nan = RVal.nan := by
  intro x
  cases x <;> rfl

theorem RVal.div_nan_right : ∀ x : RVal, x.div RVal.nan = RVal.nan := by
  intro x
  cases x <;> rfl

theorem RVal.add_nan_left : ∀ x : RVal, RVal.nan.add x = RVal.nan := by
  intro x
  cases x <;> rfl

theorem foldl_add_nan : ∀ l : List RVal, l.foldl RVal.add RVal.nan = RVal.nan := by
  intro l
  induction l with
  | nil => rfl
  | cons x xs ih =>
    rw [List.foldl_cons, RVal.add_nan_left]
    exact ih

theorem foldl_add_of_mem_nan : ∀ (l : List RVal) (acc : RVal),
    RVal.nan ∈ l → l.foldl RVal.add acc = RVal.nan := by
  intro l
  induction l with
  | nil => intro acc h; cases h
  | cons x xs ih =>
    intro acc h
    rcases List.mem_cons.mp h with h1 | h2
    · rw [List.foldl_cons, ← h1, RVal.add_nan_right]
      exact foldl_add_nan xs
    · rw [List.foldl_cons]
      exact ih _ h2

theorem foldl_add_eq_pinf_mem : ∀ (l : List RVal) (acc : RVal),
    l.foldl RVal.add acc = RVal.pinf → acc = RVal.pinf ∨ RVal.pinf ∈ l := by
  intro l
  induction l with
  | nil => intro acc h; exact Or.inl h
  | cons x xs ih =>
    intro acc h
    rw [List.foldl_cons] at h
    rcases ih _ h with h1 | h2
    · have : acc = RVal.pinf ∨ x = RVal.pinf := by
        cases acc <;> cases x <;> simp_all [RVal.add]
      rcases this with ha | hx
      · exact Or.inl ha
      · subst hx
        exact Or.inr (List.mem_cons_self _ _)
    · exact Or.inr (List.mem_cons_of_mem _ h2)

theorem foldl_add_eq_ninf_mem : ∀ (l : List RVal) (acc : RVal),
    l.foldl RVal.add acc = RVal.ninf → acc = RVal.ninf ∨ RVal.ninf ∈ l := by
  intro l
  induction l with
  | nil => intro acc h; exact Or.inl h
  | cons x xs ih =>
    intro acc h
    rw [List.foldl_cons] at h
    rcases ih _ h with h1 | h2
    · have : acc = RVal.ninf ∨ x = RVal.ninf := by
        cases acc <;> cases x <;> simp_all [RVal.add]
      rcases this with ha | hx
      · exact Or.inl ha
      · subst hx
        exact Or.inr (List.mem_cons_self _ _)
    · exact Or.inr (List.mem_cons_of_mem _ h2)

theorem foldl_add_absorb : ∀ (l : List RVal),
    (l.foldl RVal.add RVal.pinf = RVal.pinf ∨ l.foldl RVal.add RVal.pinf = RVal.nan)
    ∧ (l.foldl RVal.add RVal.ninf = RVal.ninf ∨ l.foldl RVal.add RVal.ninf = RVal.nan) := by
  intro l
  induction l with
  | nil => exact ⟨Or.inl rfl, Or.inl rfl⟩
  | cons x xs ih =>
    constructor
    · rw [List.foldl_cons]
      cases x with
      | fin a => exact ih.1
      | pinf => exact ih.1
      | ninf =>
        rw [show RVal.add RVal.pinf RVal.ninf = RVal.nan from rfl]
        exact Or.inr (foldl_add_nan xs)
      | nan =>
        rw [RVal.add_nan_right]
        exact Or.inr (foldl_add_nan xs)
    · rw [List.foldl_cons]
      cases x with
      | fin a => exact ih.2
      | ninf => exact ih.2
      | pinf =>
        rw [show RVal.add RVal.ninf RVal.pinf = RVal.nan from rfl]
        exact Or.inr (foldl_add_nan xs)
      | nan =>
        rw [RVal.add_nan_right]
        exact Or.inr (foldl_add_nan xs)

theorem foldl_add_fin_all_fin : ∀ (l : List RVal) (q s : ℚ),
    l.foldl RVal.add (RVal.fin q) = RVal.fin s →
    ∀ x ∈ l, ∃ r, x = RVal.fin r := by
  intro l
  induction l with
  | nil => intro q s _ x hx; cases hx
  | cons y ys ih =>
    intro q s h x hx
    rw [List.foldl_cons] at h
    cases y with
    | fin b =>
      rcases List.mem_cons.mp hx with h1 | h2
      · exact ⟨b, h1⟩
      · exact ih (q + b) s h x h2
    | pinf =>
      exfalso
      rw [show RVal.add (RVal.fin q) RVal.pinf = RVal.pinf from rfl] at h
      rcases (foldl_add_absorb ys).1 with h1 | h1 <;> rw [h] at h1 <;>
        exact RVal.noConfusion h1
    | ninf =>
      exfalso
      rw [show RVal.add (RVal.fin q) RVal.ninf = RVal.ninf from rfl] at h
      rcases (foldl_add_absorb ys).2 with h1 | h1 <;> rw [h] at h1 <;>
        exact RVal.noConfusion h1
    | nan =>
      exfalso
      rw [RVal.add_nan_right, foldl_add_nan ys] at h
      exact RVal.noConfusion h

theorem foldl_add_fin_sum : ∀ (l : List RVal) (q : ℚ),
    (∀ x ∈ l, ∃ r, x = RVal.fin r) →
    l.foldl RVal.add (RVal.fin q) = RVal.fin (q + (l.map RVal.finPart).sum) := by
  intro l
  induction l with
  | nil => intro q _; simp
  | cons y ys ih =>
    intro q hall
    obtain ⟨r, hr⟩ := hall y (List.mem_cons_self _ _)
    subst hr
    rw [List.foldl_cons,
      show RVal.add (RVal.fin q) (RVal.fin r) = RVal.fin (q + r) from rfl,
      ih (q + r) (fun x hx => hall x (List.mem_cons_of_mem _ hx))]
    congr 1
    simp [RVal.finPart]
    ring

theorem list_sum_neg_of_neg : ∀ (l : List ℚ),
    (∀ x ∈ l, x < 0) → l ≠ [] → l.sum < 0 := by
  intro l
  induction l with
  | nil => intro _ h; exact absurd rfl h
  | cons x xs ih =>
    intro hall _
    rw [List.sum_cons]
    have hx := hall x (List.mem_cons_self _ _)
    rcases eq_or_ne xs [] with h | h
    · subst h
      simpa using hx
    · have := ih (fun y hy => hall y (List.mem_cons_of_mem _ hy)) h
      linarith

theorem foldl_add_pinf_of_mem : ∀ (l : List RVal),
    (RVal.ninf ∈ l ∨ RVal.nan ∈ l) → l.foldl RVal.add RVal.pinf = RVal.nan := by
  intro l
  induction l with
  | nil => intro h; rcases h with h | h <;> cases h
  | cons y ys ih =>
    intro h
    rw [List.foldl_cons]
    cases y with
    | ninf =>
      rw [show RVal.add RVal.pinf RVal.ninf = RVal.nan from rfl]
      exact foldl_add_nan ys
    | nan =>
      rw [RVal.add_nan_right]
      exact foldl_add_nan ys
    | pinf =>
      apply ih
      rcases h with h | h
      · rcases List.mem_cons.mp h with h1 | h1
        · exact RVal.noConfusion h1
        · exact Or.inl h1
      · rcases List.mem_cons.mp h with h1 | h1
        · exact RVal.noConfusion h1
        · exact Or.inr h1
    | fin a =>
      apply ih
      rcases h with h | h
      · rcases List.mem_cons.mp h with h1 | h1
        · exact RVal.noConfusion h1
        · exact Or.inl h1
      · rcases List.mem_cons.mp h with h1 | h1
        · exact RVal.noConfusion h1
        · exact Or.inr h1

theorem foldl_add_ninf_of_mem : ∀ (l : List RVal),
    (RVal.pinf ∈ l ∨ RVal.nan ∈ l) → l.foldl RVal.add RVal.ninf = RVal.nan := by
  intro l
  induction l with
  | nil => intro h; rcases h with h | h <;> cases h
  | cons y ys ih =>
    intro h
    rw [List.foldl_cons]
    cases y with
    | pinf =>
      rw [show RVal.add RVal.ninf RVal.pinf = RVal.nan from rfl]
      exact foldl_add_nan ys
    | nan =>
      rw [RVal.add_nan_right]
      exact foldl_add_nan ys
    | ninf =>
      apply ih
      rcases h with h | h
      · rcases List.mem_cons.mp h with h1 | h1
        · exact RVal.noConfusion h1
        · exact Or.inl h1
      · rcases List.mem_cons.mp h with h1 | h1
        · exact RVal.noConfusion h1
        · exact Or.inr h1
    | fin a =>
      apply ih
      rcases h with h | h
      · rcases List.mem_cons.mp h with h1 | h1
        · exact RVal.noConfusion h1
        · exact Or.inl h1
      · rcases List.mem_cons.mp h with h1 | h1
        · exact RVal.noConfusion h1
        · exact Or.inr h1

theorem foldl_add_two_infs : ∀ (l : List RVal) (q : ℚ),
    RVal.pinf ∈ l → RVal.ninf ∈ l →
    l.foldl RVal.add (RVal.fin q) = RVal.nan := by
  intro l
  induction l with
  | nil => intro q h; cases h
  | cons y ys ih =>
    intro q hp hn
    rw [List.foldl_cons]
    cases y with
    | pinf =>
      rw [show RVal.add (RVal.fin q) RVal.pinf = RVal.pinf from rfl]
      apply foldl_add_pinf_of_mem
      left
      rcases List.mem_cons.mp hn with h1 | h1
      · exact RVal.noConfusion h1
      · exact h1
    | ninf =>
      rw [show RVal.add (RVal.fin q) RVal.ninf = RVal.ninf from rfl]
      apply foldl_add_ninf_of_mem
      left
      rcases List.mem_cons.mp hp with h1 | h1
      · exact RVal.noConfusion h1
      · exact h1
    | nan =>
      rw [RVal.add_nan_right]
      exact foldl_add_nan ys
    | fin b =>
      rw [show RVal.add (RVal.fin q) (RVal.fin b) = RVal.fin (q + b) from rfl]
      apply ih
      · rcases List.mem_cons.mp hp with h1 | h1
        · exact RVal.noConfusion h1
        · exact h1
      · rcases List.mem_cons.mp hn with h1 | h1
        · exact RVal.noConfusion h1
        · exact h1

theorem exists_pos_neg_of_sum_zero (l : List ℚ) (hne : l ≠ [])
    (hz : ∀ x ∈ l, x ≠ 0) (hs : l.sum = 0) :
    (∃ x ∈ l, 0 < x) ∧ (∃ x ∈ l, x < 0) := by
  constructor
  · by_contra hc
    push_neg at hc
    have hneg : ∀ x ∈ l, x < 0 :=
      fun x hx => lt_of_le_of_ne (hc x hx) (hz x hx)
    have := list_sum_neg_of_neg l hneg hne
    linarith
  · by_contra hc
    push_neg at hc
    have hpos : ∀ x ∈ l, 0 < x :=
      fun x hx => lt_of_le_of_ne (hc x hx) (Ne.symm (hz x hx))
    have := List.sum_pos l hpos hne
    linarith

/-- Claim C4: when the raw selection weights `weight[i] * completeness[i]`
have a zero or non-finite IEEE sum, the normalized vector the generator
hands to `np.random.choice` always has a NaN sum, so the choice call's
input validation rejects it with an exception before a single index is
drawn: the call aborts with no partial result instead of silently producing
NaN-filled output. -/
theorem degenerate_weights_fail_fast (raw : List RVal) (atol : ℚ)
    (hne : raw ≠ [])
    (hdeg : psum raw = RVal.fin 0 ∨ psum raw = RVal.pinf
      ∨ psum raw = RVal.ninf ∨ psum raw = RVal.nan) :
    npChoiceValidate atol (normalizeWeights raw)
      = .error "probabilities contain NaN" := by
  have key : RVal.nan ∈ normalizeWeights raw
      ∨ (RVal.pinf ∈ normalizeWeights raw ∧ RVal.ninf ∈ normalizeWeights raw) := by
    rcases hdeg with h0 | hp | hn | hnn
    · have hallfin : ∀ x ∈ raw, ∃ r, x = RVal.fin r :=
        foldl_add_fin_all_fin raw 0 0 h0
      by_cases hzero : ∃ x ∈ raw, x = RVal.fin 0
      · left
        obtain ⟨x, hx, hxe⟩ := hzero
        unfold normalizeWeights
        refine List.mem_map.mpr ⟨x, hx, ?_⟩
        show RVal.div x (psum raw) = RVal.nan
        rw [hxe, h0]
        simp [RVal.div]
      · push_neg at hzero
        have hsum := foldl_add_fin_sum raw 0 hallfin
        have hS : (raw.map RVal.finPart).sum = 0 := by
          have h0' := h0
          unfold psum at h0'
          rw [hsum] at h0'
          injection h0' with h0''
          linarith
        have hmapne : raw.map RVal.finPart ≠ [] := by
          intro hcon
          exact hne (List.map_eq_nil_iff.mp hcon)
        have hmapnz : ∀ y ∈ raw.map RVal.finPart, y ≠ 0 := by
          intro y hy
          obtain ⟨x, hx, hxy⟩ := List.mem_map.mp hy
          obtain ⟨r, hr⟩ := hallfin x hx
          subst hr
          have hry : r = y := hxy
          intro hy0
          exact hzero (RVal.fin r) hx (by rw [hry, hy0])
        obtain ⟨⟨yp, hypm, hyp⟩, ⟨yn, hynm, hyn⟩⟩ :=
          exists_pos_neg_of_sum_zero (raw.map RVal.finPart) hmapne hmapnz hS
        right
        constructor
        · obtain ⟨x, hx, hxy⟩ := List.mem_map.mp hypm
          obtain ⟨r, hr⟩ := hallfin x hx
          subst hr
          have hry : r = yp := hxy
          subst hry
          unfold normalizeWeights
          refine List.mem_map.mpr ⟨RVal.fin r, hx, ?_⟩
          show RVal.div (RVal.fin r) (psum raw) = RVal.pinf
          rw [h0]
          simp [RVal.div, hyp, hyp.ne']
        · obtain ⟨x, hx, hxy⟩ := List.mem_map.mp hynm
          obtain ⟨r, hr⟩ := hallfin x hx
          subst hr
          have hry : r = yn := hxy
          subst hry
          unfold normalizeWeights
          refine List.mem_map.mpr ⟨RVal.fin r, hx, ?_⟩
          show RVal.div (RVal.fin r) (psum raw) = RVal.ninf
          rw [h0]
          have h1 : ¬ (0 : ℚ) < r := not_lt.mpr hyn.le
          simp [RVal.div, hyn.ne, h1]
    · left
      have hmem : RVal.pinf ∈ raw := by
        rcases foldl_add_eq_pinf_mem raw (RVal.fin 0) hp with h1 | h1
        · exact RVal.noConfusion h1
        · exact h1
      unfold normalizeWeights
      refine List.mem_map.mpr ⟨RVal.pinf, hmem, ?_⟩
      show RVal.div RVal.pinf (psum raw) = RVal.nan
      rw [hp]
      rfl
    · left
      have hmem : RVal.ninf ∈ raw := by
        rcases foldl_add_eq_ninf_mem raw (RVal.fin 0) hn with h1 | h1
        · exact RVal.noConfusion h1
        · exact h1
      unfold normalizeWeights
      refine List.mem_map.mpr ⟨RVal.ninf, hmem, ?_⟩
      show RVal.div RVal.ninf (psum raw) = RVal.nan
      rw [hn]
      rfl
    · left
      obtain ⟨y, ys, hcons⟩ := List.exists_cons_of_ne_nil hne
      unfold normalizeWeights
      refine List.mem_map.mpr ⟨y, ?_, ?_⟩
      · rw [hcons]
        exact List.mem_cons_self _ _
      · show RVal.div y (psum raw) = RVal.nan
        rw [hnn]
        exact RVal.div_nan_right y
  have hnan : (psum (normalizeWeights raw)).isNan = true := by
    rcases key with h | ⟨hp2, hn2⟩
    · have hh := foldl_add_of_mem_nan (normalizeWeights raw) (RVal.fin 0) h
      unfold psum
      rw [hh]
      rfl
    · have hh := foldl_add_two_infs (normalizeWeights raw) 0 hp2 hn2
      unfold psum
      rw [hh]
      rfl
  unfold npChoiceValidate
  rw [if_pos hnan]

theorem degenerate_weights_fail_fast_witness :
    ([RVal.fin 0] : List RVal) ≠ []
      ∧ (psum [RVal.fin 0] = RVal.fin 0 ∨ psum [RVal.fin 0] = RVal.pinf
          ∨ psum [RVal.fin 0] = RVal.ninf ∨ psum [RVal.fin 0] = RVal.nan)
      ∧ npChoiceValidate (1/1000) (normalizeWeights [RVal.fin 0])
          = .error "probabilities contain NaN" := by
  have h0 : psum [RVal.fin 0] = RVal.fin 0 := by
    simp [psum, RVal.add]
  exact ⟨by simp, Or.inl h0,
    degenerate_weights_fail_fast [RVal.fin 0] (1/1000) (by simp) (Or.inl h0)⟩
